import Mathlib

/-!
Shallow embedding of the execution tracer of `justinfrevert/wasmi`
(`src/tracer/mod.rs`) together with proofs about its registration and
bookkeeping operations.

Machine integers (`u32`, `u64`) are modelled as `Nat`; where wrap-around of
the source's `u32` arithmetic is reachable, the embedding applies an explicit
`% 2^32` and the theorems carry the corresponding bound hypotheses.

Code of the repository that lives outside `src/` (the `specs` crate, the
`tracer::imtable`, `tracer::phantom` submodules, and the wasmi interpreter
internals) is modelled from the specification; each such definition carries a
doc comment starting with `Modelled from the spec:`.
-/

namespace Wasmi

/-- `u32::MAX + 1`, the modulus of the source's 32-bit arithmetic. -/
def U32 : Nat := 4294967296

/-- `u32::MAX` (`u32::MAX` literal in `push_init_memory`). -/
def u32max : Nat := 4294967295

/-! ## Frame/event tracker (`last_jump_eid` stack, `push_frame`/`pop_frame`) -/

/-- `Tracer::push_frame`: pushes the current event id onto the
`last_jump_eid` stack.  The `Vec` is modelled as a list with its top at the
head. -/
def push_frame (eid : Nat) (stack : List Nat) : List Nat :=
  eid :: stack

/-- `Tracer::pop_frame`: `self.last_jump_eid.pop().unwrap()` — removes the
top frame marker; the `unwrap` is fatal on an empty stack, modelled as
`none`. -/
def pop_frame (stack : List Nat) : Option (List Nat) :=
  match stack with
  | [] => none
  | _ :: rest => some rest

/-- A call/return event driving the frame tracker. -/
inductive FrameOp where
  | push (eid : Nat)
  | pop
deriving DecidableEq, Repr

/-- Run a sequence of `push_frame`/`pop_frame` calls against a stack;
`none` as soon as a `pop_frame` hits an empty stack. -/
def runFrames : List FrameOp → List Nat → Option (List Nat)
  | [], stack => some stack
  | .push eid :: ops, stack => runFrames ops (push_frame eid stack)
  | .pop :: ops, stack =>
    match pop_frame stack with
    | none => none
    | some stack' => runFrames ops stack'

/-- A sequence is balanced at depth `d` when every `pop` is preceded by a
matching unmatched `push` (the running depth never drops below zero). -/
def balancedAux : List FrameOp → Nat → Bool
  | [], _ => true
  | .push _ :: ops, d => balancedAux ops (d + 1)
  | .pop :: ops, d =>
    match d with
    | 0 => false
    | d' + 1 => balancedAux ops d'

/-- A balanced call/return sequence: every `pop_frame` is preceded by a
matching unmatched `push_frame`. -/
def balanced (ops : List FrameOp) : Bool := balancedAux ops 0

/-- Number of `push_frame` calls in a sequence. -/
def pushCount (ops : List FrameOp) : Nat :=
  ops.countP fun op => match op with | .push _ => true | .pop => false

/-- Number of `pop_frame` calls in a sequence. -/
def popCount (ops : List FrameOp) : Nat :=
  ops.countP fun op => match op with | .push _ => false | .pop => true

/-! ## Indirect-call (elem) table -/

/-- `specs::brtable::ElemEntry` (field order as in the struct literal inside
`Tracer::push_elem`). -/
structure ElemEntry where
  table_idx : Nat
  type_idx : Nat
  offset : Nat
  func_idx : Nat
deriving DecidableEq, Repr

/-- `Tracer::push_elem`, with `ElemTable::insert` — code outside `src/` —
Modelled from the spec: "appends one IndirectCallEntry verbatim, in call
order, with no deduplication, validation of offset bounds, or overwrite
semantics". -/
def push_elem (table : List ElemEntry) (table_idx offset func_idx type_idx : Nat) :
    List ElemEntry :=
  table ++ [{ table_idx := table_idx, type_idx := type_idx,
              offset := offset, func_idx := func_idx }]

/-! ## Memory image (`push_init_memory`, `push_global`) -/

/-- `specs::mtable::VarType` (only the variants the tracer uses). -/
inductive VarType where
  | i32
  | i64
deriving DecidableEq, Repr

/-- A row of the init-memory table.  `IMTable::push` lives in
`tracer/imtable.rs`, which is outside `src/`.
Modelled from the spec: rows are `{is_global, is_mutable, range_start,
range_end, value_type, value}`; the first flag distinguishes globals from
memory words and the second carries the mutability (`snapshot_global`
"emits one row tagged global, with the declared mutability", matching the
call `imtable.push(true, globalref.is_mutable(), ..)` in `push_global`). -/
structure IMRow where
  is_global : Bool
  is_mutable : Bool
  range_start : Nat
  range_end : Nat
  vtype : VarType
  value : Nat
deriving DecidableEq, Repr

/-- A live linear-memory handle: declared initial/maximum page counts and the
byte contents at instantiation.  `get_into` bounds-checks against the byte
size, so the handle records it. -/
structure MemoryRef where
  initial : Nat
  maximum : Option Nat
  byteSize : Nat
  data : Nat → Nat

/-- Option-valued traversal: emit one result per element, failing as soon as
one element fails (the source's fatal `unwrap` inside a loop). -/
def mapOption {α β : Type} (g : α → Option β) : List α → Option (List β)
  | [] => some []
  | a :: l =>
    match g a, mapOption g l with
    | some b, some r => some (b :: r)
    | _, _ => none

/-- `MemoryInstance::get_into(addr, buf)` for an 8-byte buffer followed by
`u64::from_le_bytes`: little-endian decoding of the 8 bytes at `addr`,
failing when the read crosses the end of the buffer. -/
def readWordLE (mem : MemoryRef) (addr : Nat) : Option Nat :=
  if addr + 8 ≤ mem.byteSize then
    some (List.sum ((List.range 8).map fun k => mem.data (addr + k) * 256 ^ k))
  else
    none

/-- The little-endian decoding of the 8 bytes at byte offset `i * 8`. -/
def wordAt (mem : MemoryRef) (i : Nat) : Nat :=
  List.sum ((List.range 8).map fun k => mem.data (i * 8 + k) * 256 ^ k)

/-- The row `push_init_memory` emits for word address `i`:
`imtable.push(false, true, i, i, VarType::I64, u64::from_le_bytes(buf))`. -/
def initWordRow (i value : Nat) : IMRow :=
  { is_global := false, is_mutable := true, range_start := i, range_end := i,
    vtype := .i64, value := value }

/-- The sentinel row `push_init_memory` emits after the initial words; the
source computes `limit * 8192 - 1` in `u32`, so the subtraction wraps and is
modelled with an explicit `% 2^32`. -/
def sentinelRow (mem : MemoryRef) : IMRow :=
  { is_global := false, is_mutable := true,
    range_start := mem.initial * 8192,
    range_end :=
      match mem.maximum with
      | some limit => (limit * 8192 + U32 - 1) % U32
      | none => u32max,
    vtype := .i64, value := 0 }

/-- `Tracer::push_init_memory`: one row per 64-bit word of the initial pages
(8192 words per page), each read via `get_into` (fatal when out of bounds,
modelled as `none`), followed by the single sentinel row. -/
def push_init_memory (mem : MemoryRef) : Option (List IMRow) :=
  match mapOption
      (fun i => (readWordLE mem (i * 8)).map fun w => initWordRow i w)
      (List.range (mem.initial * 8192)) with
  | none => none
  | some rows => some (rows ++ [sentinelRow mem])

/-- A live global handle: declared mutability, value type, and current value
already reinterpreted as a 64-bit integer
(`from_value_internal_to_u64_with_typ` lives outside `src/`;
Modelled from the spec: "its current value reinterpreted as a 64-bit integer
consistent with that type"). -/
structure GlobalRef where
  isMutable : Bool
  vtype : VarType
  value64 : Nat

/-- `Tracer::push_global`:
`imtable.push(true, globalref.is_mutable(), globalidx, globalidx, vtype, value)`. -/
def push_global (globalidx : Nat) (g : GlobalRef) : IMRow :=
  { is_global := true, is_mutable := g.isMutable, range_start := globalidx,
    range_end := globalidx, vtype := g.vtype, value := g.value64 }

/-! ## Function registration (`register_module_instance` and its lookups) -/

/-- A function signature; for the tracer only the number of argument and
result slots matters (stub synthesis is per argument/result slot). -/
structure Sig where
  params : Nat
  results : Nat
deriving DecidableEq, Repr

/-- A decoded operation.  The `isa::Instruction` type lives outside `src/`.
Modelled from the spec: an operation either embeds a call target ("any
embedded call target is rewritten from native module index to stable index"),
is the return emitted by stub synthesis, or is opaque to the tracer. -/
inductive Instr where
  | call (target : Nat)
  | ret
  | other (code : Nat)
deriving DecidableEq, Repr

/-- `specs::host_function::HostFunctionDesc`. -/
inductive HostFunctionDesc where
  | internal (name : String) (op_index_in_plugin : Nat) (plugin : Nat)
  | external (name : String) (op : Nat) (sig : Sig)
deriving DecidableEq, Repr

/-- `specs::types::FunctionType` as matched in `register_module_instance`. -/
inductive FunctionType where
  | wasmFunction
  | hostFunction (plugin : Nat) (function_index : Nat) (function_name : String)
      (op_index_in_plugin : Nat)
  | hostFunctionExternal (function_name : String) (op : Nat) (sig : Sig)
deriving DecidableEq, Repr

/-- `FuncInstanceInternal`: a function handle is either module-defined
(`Internal`) or backed by a host slot (`Host { host_func_index }`). -/
inductive FuncInternal where
  | internal
  | host (host_func_index : Nat)
deriving DecidableEq, Repr

/-- `Tracer::FuncDesc`. -/
structure FuncDesc where
  index_within_jtable : Nat
  ftype : FunctionType
  signature : Sig
deriving DecidableEq, Repr

/-- A live function handle as seen through `func_by_index`: its identity
(`FuncRef` equality is modelled by a numeric id), its internal kind, its
signature, and its body when module-defined (`func.body()`), as the list of
`(pc, instruction)` pairs produced by `body.code.iterate_from(0)` in source
order. -/
structure FuncInst where
  ref : Nat
  internal : FuncInternal
  signature : Sig
  body : Option (List (Nat × Instr))
deriving DecidableEq, Repr

/-- An export-map entry value: a function handle or any non-function
export. -/
inductive ExportVal where
  | func (ref : Nat)
  | other
deriving DecidableEq, Repr

/-- The module instance: `func_by_index` enumeration (position = native
function index) and the export map. -/
structure ModuleInst where
  funcs : List FuncInst
  exports : List (String × ExportVal)

/-- The decoded module; the tracer only reads `module().start_section()`. -/
structure WasmModule where
  startSection : Option Nat

/-- A row of `specs::itable::InstructionTable`. -/
structure IEntry where
  fid : Nat
  iid : Nat
  op : Instr
deriving DecidableEq, Repr

/-- `Tracer::allocate_func_index`: returns the current allocator value and
stores its successor (a `u32` increment, hence the `% 2^32`). -/
def allocate_func_index (alloc : Nat) : Nat × Nat :=
  (alloc, (alloc + 1) % U32)

/-- Repeated calls to `allocate_func_index`: the list of returned indices
after `k` calls starting from allocator state `alloc`. -/
def allocRun : Nat → Nat → List Nat
  | _, 0 => []
  | alloc, k + 1 =>
    let (r, alloc') := allocate_func_index alloc
    r :: allocRun alloc' k

/-- `Tracer::lookup_host_plugin`: `host_function_index_lookup.get(..)` with a
fatal `unwrap` on a missing descriptor, modelled as `none`. -/
def lookup_host_plugin (host : List (Nat × HostFunctionDesc)) (function_index : Nat) :
    Option HostFunctionDesc :=
  (host.find? fun p => p.1 = function_index).map Prod.snd

/-- The `ftype` computation of `register_module_instance`'s first loop:
module-defined handles become `WasmFunction`; host-backed handles are looked
up in the host descriptor table (fatal when missing). -/
def classifyFunc (host : List (Nat × HostFunctionDesc)) :
    FuncInternal → Option FunctionType
  | .internal => some .wasmFunction
  | .host hfi =>
    (lookup_host_plugin host hfi).map fun desc =>
      match desc with
      | .internal name op plugin => .hostFunction plugin hfi name op
      | .external name op sig => .hostFunctionExternal name op sig

/-- The first loop of `register_module_instance`: walk the functions in
ascending native-index order, resolve `wasm_input_func_idx`, assign each
function its stable index (`0` for the start function, otherwise
`allocate_func_index`), classify it, and record both the
`function_lookup` pair and the `function_index_translation` entry.
Returns `(function_index_translation, function_lookup, wasm_input_func_idx,
final allocator)`. -/
def phase1 (host : List (Nat × HostFunctionDesc)) (startIdx : Option Nat)
    (inputRef : Option Nat) :
    List FuncInst → Nat → Nat → Option Nat →
    Option (List (Nat × FuncDesc) × List (Nat × Nat) × Option Nat × Nat)
  | [], _, alloc, inIdx => some ([], [], inIdx, alloc)
  | f :: fs, i, alloc, inIdx =>
    let inIdx' := if inputRef = some f.ref then some i else inIdx
    let (fidx, alloc') :=
      if startIdx = some i then (0, alloc) else allocate_func_index alloc
    match classifyFunc host f.internal with
    | none => none
    | some ft =>
      match phase1 host startIdx inputRef fs (i + 1) alloc' inIdx' with
      | none => none
      | some (tm, fl, inFinal, allocFinal) =>
        some ((i, { index_within_jtable := fidx, ftype := ft,
                    signature := f.signature }) :: tm,
              (f.ref, fidx) :: fl, inFinal, allocFinal)

/-- The second block of `register_module_instance`: for every configured
pattern and every export, a function export whose name matches is pushed
onto `phantom_functions_ref` (regular-expression matching is abstracted by
the `rmatch` parameter). -/
def resolvePhantoms (rmatch : String → String → Bool) (patterns : List String)
    (exports : List (String × ExportVal)) : List Nat :=
  patterns.flatMap fun pat =>
    exports.filterMap fun e =>
      match e.2 with
      | .func r => if rmatch pat e.1 then some r else none
      | .other => none

/-- `PhantomFunction::build_phantom_function_instructions` lives in
`tracer/phantom.rs`, outside `src/`.  Modelled from the spec: "produce a
fixed instruction sequence (numbered from 0) that calls the host input
function per argument/result slot needed to satisfy the signature, then
returns". -/
def build_phantom_function_instructions (sig : Sig) (wasm_input_func_idx : Nat) :
    List Instr :=
  List.replicate (sig.params + sig.results) (Instr.call wasm_input_func_idx) ++
    [Instr.ret]

/-- `HashMap::get` on `function_index_translation` (keys are the distinct
native indices, so an association-list lookup is faithful). -/
def lookupTranslation (tm : List (Nat × FuncDesc)) (i : Nat) : Option FuncDesc :=
  (tm.find? fun p => p.1 = i).map Prod.snd

/-- `instruction.into(&self.function_index_translation)` — code outside
`src/`.  Modelled from the spec: "any embedded call target is rewritten from
native module index to stable index" (a missing target is an internal
consistency error, hence fatal). -/
def translateInstr (tm : List (Nat × FuncDesc)) : Instr → Option Instr
  | .call t => (lookupTranslation tm t).map fun d => .call d.index_within_jtable
  | .ret => some .ret
  | .other c => some (.other c)

/-- One `itable.push(fid, position, translated_operation)` call: translate
the operation (fatal when a call target is unregistered) and build the row. -/
def buildRow (tm : List (Nat × FuncDesc)) (fidx : Nat) (p : Nat × Instr) :
    Option IEntry :=
  (translateInstr tm p.2).map fun op => { fid := fidx, iid := p.1, op := op }

/-- The instruction rows the third loop of `register_module_instance` emits
for one function: the translated synthesized stub (positions `0,1,2,…`) when
the function is phantom (fatal when `wasm_input_func_idx` is unset), else the
translated real body at its source positions, and nothing when the function
has no body. -/
def rowsForFunc (tm : List (Nat × FuncDesc)) (phantoms : List Nat)
    (inputIdx : Option Nat) (i : Nat) (f : FuncInst) : Option (List IEntry) :=
  match lookupTranslation tm i with
  | none => none
  | some fd =>
    if f.ref ∈ phantoms then
      match inputIdx with
      | none => none
      | some widx =>
        mapOption (buildRow tm fd.index_within_jtable)
          (build_phantom_function_instructions f.signature widx).enum
    else
      match f.body with
      | some body => mapOption (buildRow tm fd.index_within_jtable) body
      | none => some []

/-- The third loop of `register_module_instance`: emit every function's rows
in ascending native-index order. -/
def phase3 (tm : List (Nat × FuncDesc)) (phantoms : List Nat)
    (inputIdx : Option Nat) : List FuncInst → Nat → Option (List (List IEntry))
  | [], _ => some []
  | f :: fs, i =>
    match rowsForFunc tm phantoms inputIdx i f, phase3 tm phantoms inputIdx fs (i + 1) with
    | some rows, some rest => some (rows :: rest)
    | _, _ => none

/-- The tables `register_module_instance` populates (the fields of `Tracer`
the claims are about). -/
structure Tables where
  itable : List IEntry
  function_lookup : List (Nat × Nat)
  function_index_translation : List (Nat × FuncDesc)
  wasm_input_func_idx : Option Nat
  phantom_functions_ref : List Nat
deriving Repr

/-- `Tracer::register_module_instance` on a fresh tracer
(`function_index_allocator = 1`, empty tables): index assignment, phantom
resolution, then instruction-table construction.  `InstructionTable::push`
lives in the `specs` crate, outside `src/`; Modelled from the spec: it
"rejects duplicate (function_stable_index, position) pairs as a fatal
internal error", expressed as a no-duplicate check over the emitted rows. -/
def register_module_instance (host : List (Nat × HostFunctionDesc))
    (patterns : List String) (rmatch : String → String → Bool)
    (inputRef : Option Nat) (m : WasmModule) (inst : ModuleInst) :
    Option Tables :=
  match phase1 host m.startSection inputRef inst.funcs 0 1 none with
  | none => none
  | some (tm, fl, inIdx, _alloc) =>
    let phantoms := resolvePhantoms rmatch patterns inst.exports
    match phase3 tm phantoms inIdx inst.funcs 0 with
    | none => none
    | some blocks =>
      let it := blocks.flatten
      if (it.map fun e => (e.fid, e.iid)).Nodup then
        some { itable := it, function_lookup := fl,
               function_index_translation := tm, wasm_input_func_idx := inIdx,
               phantom_functions_ref := phantoms }
      else none

/-- `Tracer::lookup_function`: first `function_lookup` pair whose handle
matches; the `unwrap` on an unregistered handle is fatal. -/
def lookup_function (t : Tables) (ref : Nat) : Option Nat :=
  (t.function_lookup.find? fun p => p.1 = ref).map Prod.snd

/-- `Tracer::lookup_first_inst`: scan `itable.entries()` in build order and
return the first entry of the function; `unreachable!()` (fatal) when there
is none. -/
def lookup_first_inst (t : Tables) (ref : Nat) : Option IEntry :=
  match lookup_function t ref with
  | none => none
  | some fid => t.itable.find? fun e => e.fid = fid

/-- `Tracer::is_phantom_function`: membership in `phantom_functions_ref`. -/
def is_phantom_function (t : Tables) (ref : Nat) : Bool :=
  t.phantom_functions_ref.contains ref

/-! ## Specification views and concrete fixtures -/

/-- The stable-index sequence the first loop assigns, read off `phase1`:
starting at native index `i` with allocator state `alloc`, for `n`
functions. -/
def assignIndices (startIdx : Option Nat) : Nat → Nat → Nat → List Nat
  | _, _, 0 => []
  | i, alloc, n + 1 =>
    if startIdx = some i then 0 :: assignIndices startIdx (i + 1) alloc n
    else (allocate_func_index alloc).1 ::
      assignIndices startIdx (i + 1) (allocate_func_index alloc).2 n

/-- `assignIndices` with the `u32` wrap of the allocator elided (they agree
while the allocator stays below `2^32`). -/
def assignPure (startIdx : Option Nat) : Nat → Nat → Nat → List Nat
  | _, _, 0 => []
  | i, alloc, n + 1 =>
    if startIdx = some i then 0 :: assignPure startIdx (i + 1) alloc n
    else alloc :: assignPure startIdx (i + 1) (alloc + 1) n

/-- Concrete memory handle: one initial page, no declared maximum, all-zero
contents. -/
def memZero : MemoryRef :=
  { initial := 1, maximum := none, byteSize := 65536, data := fun _ => 0 }

/-- Concrete memory handle with maximum pages equal to initial pages. -/
def memOne : MemoryRef :=
  { initial := 1, maximum := some 1, byteSize := 65536, data := fun _ => 0 }

/-- Concrete host-function descriptor table for the fixtures: host slot 0 is
the external "wasm_input" operation. -/
def hostFix : List (Nat × HostFunctionDesc) :=
  [(0, .external "wasm_input" 0 { params := 1, results := 1 })]

/-- Concrete module instance for the fixtures: function 0 is the host-input
function (handle 10), function 1 is the module-defined start function
(handle 11) calling native function 0, function 2 (handle 12) is exported as
"get_random". -/
def instFix : ModuleInst :=
  { funcs :=
      [ { ref := 10, internal := .host 0,
          signature := { params := 1, results := 1 }, body := none },
        { ref := 11, internal := .internal,
          signature := { params := 0, results := 0 },
          body := some [(0, .call 0), (2, .ret)] },
        { ref := 12, internal := .internal,
          signature := { params := 0, results := 1 },
          body := some [(0, .other 5), (1, .ret)] } ],
    exports :=
      [("get_random", .func 12), ("main", .func 11), ("gmem", .other)] }

/-- Concrete module descriptor for the fixtures: function 1 is the start
function. -/
def modFix : WasmModule := { startSection := some 1 }

/-- Pattern matcher used by the fixtures: literal string equality (a special
case of regular-expression matching). -/
def rmatchFix (pat name : String) : Bool := pat == name

/-- The tables produced by registering the fixture module. -/
def tFix : Tables :=
  (register_module_instance hostFix ["get_random"] rmatchFix (some 10)
      modFix instFix).getD
    { itable := [], function_lookup := [], function_index_translation := [],
      wasm_input_func_idx := none, phantom_functions_ref := [] }

/-- The phase-1 result for the fixture module when no host-input reference
was supplied. -/
def p1FixNoInput : List (Nat × FuncDesc) × List (Nat × Nat) × Option Nat × Nat :=
  (phase1 hostFix modFix.startSection none instFix.funcs 0 1 none).getD
    ([], [], none, 0)

/-! ## Helper lemmas: frame stack -/

theorem pushCount_push (e : Nat) (ops : List FrameOp) :
    pushCount (.push e :: ops) = pushCount ops + 1 := by
  simp [pushCount, List.countP_cons]

theorem pushCount_pop (ops : List FrameOp) :
    pushCount (.pop :: ops) = pushCount ops := by
  simp [pushCount, List.countP_cons]

theorem popCount_push (e : Nat) (ops : List FrameOp) :
    popCount (.push e :: ops) = popCount ops := by
  simp [popCount, List.countP_cons]

theorem popCount_pop (ops : List FrameOp) :
    popCount (.pop :: ops) = popCount ops + 1 := by
  simp [popCount, List.countP_cons]

/-- A balanced sequence runs to completion from any stack of matching depth,
and the final depth is the initial depth plus pushes minus pops. -/
theorem runFrames_of_balancedAux :
    ∀ (ops : List FrameOp) (st : List Nat), balancedAux ops st.length = true →
      ∃ st', runFrames ops st = some st' ∧
        st'.length + popCount ops = st.length + pushCount ops := by
  intro ops
  induction ops with
  | nil =>
    intro st _
    exact ⟨st, rfl, by simp [pushCount, popCount]⟩
  | cons op ops ih =>
    intro st hbal
    cases op with
    | push e =>
      have hbal' : balancedAux ops (push_frame e st).length = true := by
        simpa [balancedAux, push_frame] using hbal
      obtain ⟨st', hrun, hlen⟩ := ih (push_frame e st) hbal'
      refine ⟨st', by simpa [runFrames] using hrun, ?_⟩
      rw [pushCount_push, popCount_push]
      simp [push_frame] at hlen
      omega
    | pop =>
      cases st with
      | nil => simp [balancedAux] at hbal
      | cons a st =>
        have hbal' : balancedAux ops st.length = true := by
          simpa [balancedAux] using hbal
        obtain ⟨st', hrun, hlen⟩ := ih st hbal'
        refine ⟨st', ?_, ?_⟩
        · simpa [runFrames, pop_frame] using hrun
        · rw [pushCount_pop, popCount_pop]
          simp at hlen ⊢
          omega

/-- A prefix of a sequence balanced at depth `d` is itself balanced at
depth `d`. -/
theorem balancedAux_prefix :
    ∀ (p q : List FrameOp) (d : Nat), balancedAux (p ++ q) d = true →
      balancedAux p d = true := by
  intro p
  induction p with
  | nil => intro q d _; rfl
  | cons op p ih =>
    intro q d hbal
    cases op with
    | push e =>
      simp only [List.cons_append, balancedAux] at hbal ⊢
      exact ih q (d + 1) hbal
    | pop =>
      cases d with
      | zero => simp [balancedAux] at hbal
      | succ d =>
        simp only [List.cons_append, balancedAux] at hbal ⊢
        exact ih q d hbal

/-! ## C7: frame push/pop balance -/

/-- C7: `pop_frame` on an empty frame-marker stack fails fatally; for every
balanced call/return sequence run from an empty stack, every prefix (hence
every individual `push_frame`/`pop_frame` call) succeeds, and the resulting
depth equals pushes minus pops (so the depth never goes negative). -/
theorem pop_frame_empty_fatal_and_balanced_safe :
    pop_frame [] = none ∧
    ∀ ops : List FrameOp, balanced ops = true →
      (∀ p, p <+: ops → (runFrames p []).isSome = true) ∧
      ∃ st, runFrames ops [] = some st ∧
        st.length + popCount ops = pushCount ops := by
  refine ⟨rfl, ?_⟩
  intro ops hbal
  constructor
  · intro p hp
    obtain ⟨q, hq⟩ := hp
    have hbp : balancedAux p 0 = true := by
      apply balancedAux_prefix p q
      rw [hq]; exact hbal
    obtain ⟨st', hrun, _⟩ :=
      runFrames_of_balancedAux p ([] : List Nat) (by simpa using hbp)
    simp [hrun]
  · obtain ⟨st', hrun, hlen⟩ :=
      runFrames_of_balancedAux ops ([] : List Nat) (by simpa using hbal)
    exact ⟨st', hrun, by simpa using hlen⟩

/-- Witness for C7 on the concrete balanced sequence
`push 5; push 7; pop; push 2; pop; pop`. -/
theorem pop_frame_empty_fatal_and_balanced_safe_witness :
    balanced [.push 5, .push 7, .pop, .push 2, .pop, .pop] = true ∧
    ∃ st, runFrames [.push 5, .push 7, .pop, .push 2, .pop, .pop] [] = some st ∧
      st.length + popCount [.push 5, .push 7, .pop, .push 2, .pop, .pop] =
        pushCount [.push 5, .push 7, .pop, .push 2, .pop, .pop] :=
  ⟨by decide,
    (pop_frame_empty_fatal_and_balanced_safe.2
      [.push 5, .push 7, .pop, .push 2, .pop, .pop] (by decide)).2⟩

/-! ## Helper lemmas: memory image -/

theorem mapOption_eq_some_map {α β : Type} (g : α → Option β) (h : α → β) :
    ∀ l : List α, (∀ a ∈ l, g a = some (h a)) → mapOption g l = some (l.map h) := by
  intro l
  induction l with
  | nil => intro _; rfl
  | cons a l ih =>
    intro H
    have ha : g a = some (h a) := H a (List.mem_cons_self a l)
    have hl : mapOption g l = some (l.map h) :=
      ih fun x hx => H x (List.mem_cons_of_mem a hx)
    simp [mapOption, ha, hl]

theorem readWordLE_in_bounds (mem : MemoryRef) (i : Nat)
    (h : i * 8 + 8 ≤ mem.byteSize) :
    readWordLE mem (i * 8) = some (wordAt mem i) := by
  simp [readWordLE, wordAt, h]

/-- When the memory handle honours its contract (its buffer covers the
declared initial pages, 65536 bytes each), `push_init_memory` succeeds and
produces one word row per address followed by the sentinel. -/
theorem push_init_memory_eq (mem : MemoryRef)
    (h : mem.initial * 65536 ≤ mem.byteSize) :
    push_init_memory mem =
      some ((List.range (mem.initial * 8192)).map
              (fun i => initWordRow i (wordAt mem i)) ++ [sentinelRow mem]) := by
  have hmap : mapOption
      (fun i => (readWordLE mem (i * 8)).map fun w => initWordRow i w)
      (List.range (mem.initial * 8192)) =
      some ((List.range (mem.initial * 8192)).map
        fun i => initWordRow i (wordAt mem i)) := by
    apply mapOption_eq_some_map
    intro i hi
    have hi' : i < mem.initial * 8192 := List.mem_range.mp hi
    have hb : i * 8 + 8 ≤ mem.byteSize := by omega
    rw [readWordLE_in_bounds mem i hb]
    rfl
  simp [push_init_memory, hmap]

/-! ## C2 (corrected): contents of the initial-memory image -/

/-- C2 counterexample: the claim says every word row is tagged immutable,
but `push_init_memory` tags every word row mutable (`imtable.push(false,
true, ..)`); on the concrete one-page all-zero memory the row for word
address 0 is mutable. -/
theorem push_init_memory_immutable_counterexample :
    ¬ (∀ rows, push_init_memory memZero = some rows →
        ∀ r ∈ rows, r.range_start = 0 → r.is_mutable = false) := by
  intro H
  have heq := push_init_memory_eq memZero (by norm_num [memZero])
  have hmem : initWordRow 0 (wordAt memZero 0) ∈
      ((List.range (memZero.initial * 8192)).map
        (fun i => initWordRow i (wordAt memZero i)) ++ [sentinelRow memZero]) := by
    apply List.mem_append_left
    exact List.mem_map_of_mem _ (List.mem_range.mpr (by norm_num [memZero]))
  have := H _ heq _ hmem rfl
  simp [initWordRow] at this

/-- C2 (amended: word rows are tagged non-global and **mutable**): for a
memory handle with initial page count `P` whose buffer covers the initial
pages, `push_init_memory` emits exactly `P * 8192 + 1` rows; for every word
address `i < P * 8192` the row at position `i` is non-global, mutable, has
both range endpoints `i`, 64-bit type, and value the little-endian decoding
of the 8 bytes at byte offset `i * 8`; the final row is the sentinel at
`P * 8192`. -/
theorem push_init_memory_rows (mem : MemoryRef)
    (h : mem.initial * 65536 ≤ mem.byteSize) :
    ∃ rows, push_init_memory mem = some rows ∧
      rows.length = mem.initial * 8192 + 1 ∧
      (∀ i, i < mem.initial * 8192 →
        rows.get? i = some { is_global := false, is_mutable := true,
                             range_start := i, range_end := i,
                             vtype := .i64, value := wordAt mem i }) ∧
      rows.get? (mem.initial * 8192) = some (sentinelRow mem) := by
  refine ⟨_, push_init_memory_eq mem h, ?_, ?_, ?_⟩
  · simp
  · intro i hi
    rw [List.get?_append (by simpa using hi)]
    rw [List.get?_map, List.get?_range hi]
    rfl
  · rw [List.get?_append_right (by simp)]
    simp

/-- Witness for C2 (amended) on the one-page all-zero memory. -/
theorem push_init_memory_rows_witness :
    memZero.initial * 65536 ≤ memZero.byteSize ∧
    ∃ rows, push_init_memory memZero = some rows ∧
      rows.length = memZero.initial * 8192 + 1 ∧
      (∀ i, i < memZero.initial * 8192 →
        rows.get? i = some { is_global := false, is_mutable := true,
                             range_start := i, range_end := i,
                             vtype := .i64, value := wordAt memZero i }) ∧
      rows.get? (memZero.initial * 8192) = some (sentinelRow memZero) :=
  ⟨by norm_num [memZero], push_init_memory_rows memZero (by norm_num [memZero])⟩

/-! ## C3: the sentinel row -/

/-- C3: the single sentinel row emitted by `push_init_memory` starts at
`P * 8192`, ends at `maximum * 8192 - 1` when a maximum page count is
declared (any validated maximum is between 1 and 65536 pages, so the `u32`
subtraction does not wrap) and at `u32::MAX` otherwise, and carries value 0. -/
theorem push_init_memory_sentinel (mem : MemoryRef)
    (h : mem.initial * 65536 ≤ mem.byteSize)
    (hmax : ∀ m, mem.maximum = some m → 1 ≤ m ∧ m ≤ 65536) :
    ∃ rows, push_init_memory mem = some rows ∧
      rows.getLast? = some (sentinelRow mem) ∧
      (sentinelRow mem).range_start = mem.initial * 8192 ∧
      (sentinelRow mem).value = 0 ∧
      (∀ m, mem.maximum = some m →
        (sentinelRow mem).range_end = m * 8192 - 1) ∧
      (mem.maximum = none → (sentinelRow mem).range_end = u32max) := by
  refine ⟨_, push_init_memory_eq mem h, ?_, rfl, rfl, ?_, ?_⟩
  · simp
  · intro m hm
    obtain ⟨hm1, hm2⟩ := hmax m hm
    simp only [sentinelRow, hm]
    have h1 : m * 8192 + U32 - 1 = (m * 8192 - 1) + U32 := by
      have : 1 ≤ m * 8192 := by omega
      omega
    have h2 : m * 8192 - 1 < U32 := by
      simp only [U32]; omega
    rw [h1, Nat.add_mod_right, Nat.mod_eq_of_lt h2]
  · intro hm
    simp [sentinelRow, hm]

/-- Witness for C3 on the one-page all-zero memory (no declared maximum). -/
theorem push_init_memory_sentinel_witness :
    memZero.initial * 65536 ≤ memZero.byteSize ∧
    ∃ rows, push_init_memory memZero = some rows ∧
      rows.getLast? = some (sentinelRow memZero) ∧
      (sentinelRow memZero).range_start = memZero.initial * 8192 ∧
      (sentinelRow memZero).value = 0 ∧
      (∀ m, memZero.maximum = some m →
        (sentinelRow memZero).range_end = m * 8192 - 1) ∧
      (memZero.maximum = none → (sentinelRow memZero).range_end = u32max) :=
  ⟨by norm_num [memZero],
    push_init_memory_sentinel memZero (by norm_num [memZero])
      (by intro m hm; simp [memZero] at hm)⟩

/-! ## C10: inverted sentinel range when maximum = initial -/

/-- C10: when the declared maximum page count equals the initial page count
`P ≥ 1` (validated, so at most 65536 pages), the sentinel row has
`range_start = P * 8192` strictly greater than `range_end = P * 8192 - 1`:
an empty (inverted) address range. -/
theorem sentinel_inverted_when_max_eq_initial (mem : MemoryRef)
    (hmax : mem.maximum = some mem.initial)
    (h1 : 1 ≤ mem.initial) (h2 : mem.initial ≤ 65536)
    (hbuf : mem.initial * 65536 ≤ mem.byteSize) :
    ∃ rows, push_init_memory mem = some rows ∧
      rows.getLast? = some (sentinelRow mem) ∧
      (sentinelRow mem).range_start = mem.initial * 8192 ∧
      (sentinelRow mem).range_end = mem.initial * 8192 - 1 ∧
      (sentinelRow mem).range_end < (sentinelRow mem).range_start := by
  obtain ⟨rows, hrows, hlast, hstart, _, hend, _⟩ :=
    push_init_memory_sentinel mem hbuf
      (by intro m hm; rw [hmax] at hm; cases hm; exact ⟨h1, h2⟩)
  have he : (sentinelRow mem).range_end = mem.initial * 8192 - 1 :=
    hend mem.initial hmax
  refine ⟨rows, hrows, hlast, hstart, he, ?_⟩
  rw [he, hstart]
  omega

/-- Witness for C10 on a memory with initial = maximum = 1 page. -/
theorem sentinel_inverted_when_max_eq_initial_witness :
    memOne.maximum = some memOne.initial ∧
    ∃ rows, push_init_memory memOne = some rows ∧
      rows.getLast? = some (sentinelRow memOne) ∧
      (sentinelRow memOne).range_start = memOne.initial * 8192 ∧
      (sentinelRow memOne).range_end = memOne.initial * 8192 - 1 ∧
      (sentinelRow memOne).range_end < (sentinelRow memOne).range_start :=
  ⟨by simp [memOne],
    sentinel_inverted_when_max_eq_initial memOne (by simp [memOne])
      (by norm_num [memOne]) (by norm_num [memOne]) (by norm_num [memOne])⟩

/-! ## Helper lemmas: index allocation (phase 1) -/

theorem assignIndices_eq_pure (s : Option Nat) :
    ∀ (n i alloc : Nat), alloc + n ≤ U32 →
      assignIndices s i alloc n = assignPure s i alloc n := by
  intro n
  induction n with
  | zero => intro i alloc _; rfl
  | succ n ih =>
    intro i alloc h
    by_cases hs : s = some i
    · simp only [assignIndices, assignPure, if_pos hs]
      exact congrArg _ (ih (i + 1) alloc (by omega))
    · simp only [assignIndices, assignPure, if_neg hs, allocate_func_index]
      congr 1
      cases n with
      | zero => rfl
      | succ n' =>
        have hU : U32 = 4294967296 := rfl
        have hm : (alloc + 1) % U32 = alloc + 1 := Nat.mod_eq_of_lt (by omega)
        rw [hm]
        exact ih (i + 1) (alloc + 1) (by omega)

theorem assignPure_no_start (s : Option Nat) :
    ∀ (n i alloc : Nat), (∀ k, k < n → s ≠ some (i + k)) →
      assignPure s i alloc n = List.range' alloc n := by
  intro n
  induction n with
  | zero => intro i alloc _; rfl
  | succ n ih =>
    intro i alloc h
    have hs : s ≠ some i := by
      have := h 0 (Nat.succ_pos n)
      simpa using this
    rw [assignPure, if_neg hs, List.range'_succ]
    congr 1
    exact ih (i + 1) (alloc + 1) fun k hk => by
      have := h (k + 1) (by omega)
      simpa [Nat.add_assoc, Nat.add_comm 1 k] using this

theorem assignPure_start :
    ∀ (n i alloc t : Nat), t < n →
      assignPure (some (i + t)) i alloc n =
        List.range' alloc t ++ 0 :: List.range' (alloc + t) (n - t - 1) := by
  intro n
  induction n with
  | zero => intro i alloc t ht; omega
  | succ n ih =>
    intro i alloc t ht
    cases t with
    | zero =>
      rw [assignPure, if_pos (by simp)]
      simp only [List.range', List.nil_append, Nat.add_zero, Nat.succ_sub_one]
      congr 1
      exact assignPure_no_start _ n (i + 1) alloc fun k hk => by
        intro hcontra
        have : i + 0 = i + 1 + k := Option.some.inj hcontra
        omega
    | succ t' =>
      have hne : (some (i + (t' + 1)) : Option Nat) ≠ some i := by
        intro hcontra
        have := Option.some.inj hcontra
        omega
      rw [assignPure, if_neg hne]
      have harg : i + (t' + 1) = (i + 1) + t' := by omega
      rw [harg, ih (i + 1) (alloc + 1) t' (by omega)]
      rw [List.range'_succ]
      have e1 : alloc + (t' + 1) = alloc + 1 + t' := by omega
      have e2 : n + 1 - (t' + 1) - 1 = n - t' - 1 := by omega
      rw [e1, e2]
      simp [List.cons_append]

/-- Unfolding equation for `phase1` on a cons cell, with the destructuring
`let` resolved. -/
theorem phase1_cons (host : List (Nat × HostFunctionDesc)) (s r : Option Nat)
    (f : FuncInst) (fs : List FuncInst) (i alloc : Nat) (x : Option Nat) :
    phase1 host s r (f :: fs) i alloc x =
      match classifyFunc host f.internal with
      | none => none
      | some ft =>
        match phase1 host s r fs (i + 1)
            (if s = some i then alloc else (allocate_func_index alloc).2)
            (if r = some f.ref then some i else x) with
        | none => none
        | some (tm, fl, inF, aF) =>
          some ((i, { index_within_jtable :=
                        if s = some i then 0 else (allocate_func_index alloc).1,
                      ftype := ft, signature := f.signature }) :: tm,
                (f.ref,
                  if s = some i then 0 else (allocate_func_index alloc).1) :: fl,
                inF, aF) := by
  rw [phase1]
  by_cases hs : s = some i <;> simp [hs]

/-- Inversion of a successful `phase1` run: the translation keys are the
native indices in order, the assigned stable indices are `assignIndices`,
signatures are carried over verbatim, and `function_lookup` pairs each
handle with its stable index, in order. -/
theorem phase1_shape (host : List (Nat × HostFunctionDesc)) (s r : Option Nat) :
    ∀ (fs : List FuncInst) (i alloc : Nat) (x : Option Nat)
      (tm : List (Nat × FuncDesc)) (fl : List (Nat × Nat))
      (inF : Option Nat) (aF : Nat),
      phase1 host s r fs i alloc x = some (tm, fl, inF, aF) →
      tm.map Prod.fst = List.range' i fs.length ∧
      (tm.map fun p => p.2.index_within_jtable) = assignIndices s i alloc fs.length ∧
      (tm.map fun p => p.2.signature) = fs.map FuncInst.signature ∧
      fl = (fs.map FuncInst.ref).zip (assignIndices s i alloc fs.length) := by
  intro fs
  induction fs with
  | nil =>
    intro i alloc x tm fl inF aF hp
    rw [phase1] at hp
    simp only [Option.some.injEq, Prod.mk.injEq] at hp
    obtain ⟨h1, h2, _, _⟩ := hp
    subst h1; subst h2
    simp [assignIndices]
  | cons f fs ih =>
    intro i alloc x tm fl inF aF hp
    rw [phase1_cons] at hp
    cases hc : classifyFunc host f.internal with
    | none => rw [hc] at hp; exact absurd hp (by simp)
    | some ft =>
      rw [hc] at hp
      cases hrec : phase1 host s r fs (i + 1)
          (if s = some i then alloc else (allocate_func_index alloc).2)
          (if r = some f.ref then some i else x) with
      | none => rw [hrec] at hp; exact absurd hp (by simp)
      | some q =>
        obtain ⟨tm', fl', inF', aF'⟩ := q
        rw [hrec] at hp
        simp only [Option.some.injEq, Prod.mk.injEq] at hp
        obtain ⟨htm, hfl, _, _⟩ := hp
        subst htm; subst hfl
        obtain ⟨ih1, ih2, ih3, ih4⟩ := ih (i + 1) _ _ tm' fl' inF' aF' hrec
        by_cases hs : s = some i
        · rw [if_pos hs] at ih2 ih4
          refine ⟨?_, ?_, ?_, ?_⟩
          · simp only [List.map_cons, List.length_cons, List.range'_succ]
            exact congrArg _ ih1
          · simp only [List.map_cons, List.length_cons]
            rw [assignIndices]
            simp only [if_pos hs]
            exact congrArg _ ih2
          · simpa using ih3
          · simp only [List.map_cons, List.length_cons]
            rw [assignIndices]
            simp only [if_pos hs]
            rw [List.zip_cons_cons]
            exact congrArg _ ih4
        · rw [if_neg hs] at ih2 ih4
          refine ⟨?_, ?_, ?_, ?_⟩
          · simp only [List.map_cons, List.length_cons, List.range'_succ]
            exact congrArg _ ih1
          · simp only [List.map_cons, List.length_cons]
            rw [assignIndices]
            simp only [if_neg hs]
            exact congrArg _ ih2
          · simpa using ih3
          · simp only [List.map_cons, List.length_cons]
            rw [assignIndices]
            simp only [if_neg hs]
            rw [List.zip_cons_cons]
            exact congrArg _ ih4

/-- Association-list lookup against keys `range' i n`: searching for `i + k`
finds the `k`-th entry. -/
theorem find?_keys_range' :
    ∀ (tm : List (Nat × FuncDesc)) (i n k : Nat),
      tm.map Prod.fst = List.range' i n → k < n →
      (tm.find? fun p => p.1 = i + k) = tm.get? k := by
  intro tm
  induction tm with
  | nil =>
    intro i n k h hk
    rw [List.map_nil] at h
    have : n = 0 := by
      by_contra hn
      cases n with
      | zero => exact hn rfl
      | succ n => rw [List.range'_succ] at h; exact List.noConfusion h
    omega
  | cons p tm ih =>
    intro i n k h hk
    cases n with
    | zero => omega
    | succ n =>
      rw [List.range'_succ, List.map_cons] at h
      injection h with hp htl
      cases k with
      | zero =>
        rw [List.find?_cons]
        simp [hp]
      | succ k =>
        rw [List.find?_cons]
        have hne : ¬ (p.1 = i + (k + 1)) := by omega
        simp only [hne, decide_False]
        have harg : i + (k + 1) = (i + 1) + k := by omega
        rw [harg, ih (i + 1) n k htl (by omega)]
        rfl

/-- Successive `allocate_func_index` calls return consecutive values while
the allocator stays in `u32` range. -/
theorem allocRun_range :
    ∀ (k alloc : Nat), alloc + k ≤ U32 → allocRun alloc k = List.range' alloc k := by
  intro k
  induction k with
  | zero => intro alloc _; rfl
  | succ k ih =>
    intro alloc h
    rw [allocRun, List.range'_succ]
    simp only [allocate_func_index]
    congr 1
    cases k with
    | zero => rfl
    | succ k' =>
      have hU : U32 = 4294967296 := rfl
      have hm : (alloc + 1) % U32 = alloc + 1 := Nat.mod_eq_of_lt (by omega)
      rw [hm]
      exact ih (alloc + 1) (by omega)

/-- Inversion of a successful `register_module_instance` run into its three
phases. -/
theorem register_parts (host : List (Nat × HostFunctionDesc))
    (patterns : List String) (rmatch : String → String → Bool)
    (inputRef : Option Nat) (m : WasmModule) (inst : ModuleInst) (t : Tables)
    (hreg : register_module_instance host patterns rmatch inputRef m inst = some t) :
    ∃ aF blocks,
      phase1 host m.startSection inputRef inst.funcs 0 1 none =
        some (t.function_index_translation, t.function_lookup,
              t.wasm_input_func_idx, aF) ∧
      t.phantom_functions_ref = resolvePhantoms rmatch patterns inst.exports ∧
      phase3 t.function_index_translation t.phantom_functions_ref
        t.wasm_input_func_idx inst.funcs 0 = some blocks ∧
      t.itable = blocks.flatten ∧
      ((blocks.flatten.map fun e => (e.fid, e.iid)).Nodup) := by
  rw [register_module_instance] at hreg
  cases hp : phase1 host m.startSection inputRef inst.funcs 0 1 none with
  | none => rw [hp] at hreg; exact absurd hreg (by simp)
  | some q =>
    obtain ⟨tm, fl, inIdx, aF⟩ := q
    rw [hp] at hreg
    dsimp only at hreg
    cases h3 : phase3 tm (resolvePhantoms rmatch patterns inst.exports)
        inIdx inst.funcs 0 with
    | none => rw [h3] at hreg; exact absurd hreg (by simp)
    | some blocks =>
      rw [h3] at hreg
      dsimp only at hreg
      by_cases hnd : (blocks.flatten.map fun e => (e.fid, e.iid)).Nodup
      · rw [if_pos hnd] at hreg
        injection hreg with ht
        have h1 : t.function_index_translation = tm := by rw [← ht]
        have h2 : t.function_lookup = fl := by rw [← ht]
        have hin : t.wasm_input_func_idx = inIdx := by rw [← ht]
        have h4 : t.phantom_functions_ref =
            resolvePhantoms rmatch patterns inst.exports := by rw [← ht]
        have h5 : t.itable = blocks.flatten := by rw [← ht]
        refine ⟨aF, blocks, ?_, h4, ?_, h5, hnd⟩
        · rw [h1, h2, hin]
          try exact hp
        · rw [h1, h4, hin]
          try exact h3
      · rw [if_neg hnd] at hreg
        exact absurd hreg (by simp)

/-- Top-level stable-index sequence when a start function `s < N` is
declared. -/
theorem assign_top_start (N s : Nat) (hs : s < N) (hN : N + 1 ≤ U32) :
    assignIndices (some s) 0 1 N =
      List.range' 1 s ++ 0 :: List.range' (1 + s) (N - s - 1) := by
  rw [assignIndices_eq_pure (some s) N 0 1 (by omega)]
  have h0 : s = 0 + s := by omega
  calc assignPure (some s) 0 1 N
      = assignPure (some (0 + s)) 0 1 N := by rw [← h0]
    _ = List.range' 1 s ++ 0 :: List.range' (1 + s) (N - s - 1) :=
        assignPure_start N 0 1 s hs

/-- Top-level stable-index sequence when no start function is declared. -/
theorem assign_top_none (N : Nat) (hN : N + 1 ≤ U32) :
    assignIndices none 0 1 N = List.range' 1 N := by
  rw [assignIndices_eq_pure none N 0 1 (by omega)]
  exact assignPure_no_start none N 0 1 fun k _ => by simp

/-- The start-function index sequence is a permutation of
`0 :: [1, …, N-1]`. -/
theorem assign_start_perm (N s : Nat) (hs : s < N) :
    (List.range' 1 s ++ 0 :: List.range' (1 + s) (N - s - 1)).Perm
      (0 :: List.range' 1 (N - 1)) := by
  refine List.perm_middle.trans ?_
  have happ : List.range' 1 s ++ List.range' (1 + s) (N - s - 1) =
      List.range' 1 (N - 1) := by
    have := List.range'_append 1 s (N - s - 1) 1
    simp only [Nat.one_mul] at this
    rw [Nat.add_comm 1 s] at this ⊢
    rw [this]
    congr 1
    omega
  rw [happ]

/-! ## C1: stable function-index assignment -/

/-- C1: for a module with `N` functions processed by
`register_module_instance`: with a declared start function `s < N`, the
stable indices assigned in native order are `[1..s], 0, [s+1..N-1]` — so
exactly one `FuncDesc` (the start function's) receives index 0 and the rest
receive `{1..N-1}` contiguously with no repeats; with no start function they
are `[1..N]` and 0 is never assigned; and `allocate_func_index` is strictly
increasing starting at 1. -/
theorem register_assigns_contiguous_indices
    (host : List (Nat × HostFunctionDesc)) (patterns : List String)
    (rmatch : String → String → Bool) (inputRef : Option Nat)
    (m : WasmModule) (inst : ModuleInst) (t : Tables)
    (hN : inst.funcs.length + 1 ≤ U32)
    (hreg : register_module_instance host patterns rmatch inputRef m inst = some t) :
    (∀ s, m.startSection = some s → s < inst.funcs.length →
      (t.function_index_translation.map fun p => p.2.index_within_jtable) =
        List.range' 1 s ++ 0 :: List.range' (1 + s) (inst.funcs.length - s - 1) ∧
      (t.function_index_translation.map fun p => p.2.index_within_jtable).count 0
        = 1 ∧
      (∃ d, lookupTranslation t.function_index_translation s = some d ∧
        d.index_within_jtable = 0) ∧
      (t.function_index_translation.map fun p => p.2.index_within_jtable).Perm
        (0 :: List.range' 1 (inst.funcs.length - 1))) ∧
    (m.startSection = none →
      (t.function_index_translation.map fun p => p.2.index_within_jtable) =
        List.range' 1 inst.funcs.length ∧
      0 ∉ (t.function_index_translation.map fun p => p.2.index_within_jtable)) ∧
    (∀ k, k + 1 ≤ U32 →
      allocRun 1 k = List.range' 1 k ∧
      List.Chain' (· < ·) (allocRun 1 k)) := by
  obtain ⟨aF, blocks, hp, -, -, -, -⟩ :=
    register_parts host patterns rmatch inputRef m inst t hreg
  obtain ⟨hkeys, hidx, -, -⟩ := phase1_shape host m.startSection inputRef
    inst.funcs 0 1 none t.function_index_translation t.function_lookup
    t.wasm_input_func_idx aF hp
  refine ⟨?_, ?_, ?_⟩
  · intro s hstart hs
    rw [hstart] at hidx
    rw [assign_top_start inst.funcs.length s hs hN] at hidx
    have hperm : (t.function_index_translation.map
        fun p => p.2.index_within_jtable).Perm
        (0 :: List.range' 1 (inst.funcs.length - 1)) := by
      rw [hidx]
      exact assign_start_perm inst.funcs.length s hs
    refine ⟨hidx, ?_, ?_, hperm⟩
    · rw [hperm.count_eq]
      have h0 : 0 ∉ List.range' 1 (inst.funcs.length - 1) := by
        rw [List.mem_range'_1]
        omega
      simp [List.count_cons, List.count_eq_zero.mpr h0]
    · have hfind := find?_keys_range' t.function_index_translation 0
        inst.funcs.length s hkeys hs
      have hlen : t.function_index_translation.length = inst.funcs.length := by
        have := congrArg List.length hkeys
        simpa using this
      have hslt : s < t.function_index_translation.length := by omega
      have hp' : t.function_index_translation.get? s =
          some (t.function_index_translation.get ⟨s, hslt⟩) := List.get?_eq_get hslt
      have hp0 : (t.function_index_translation.get ⟨s, hslt⟩).2.index_within_jtable
          = 0 := by
        have hmap := congrArg (fun l => l.get? s) hidx
        simp only [List.get?_map, hp'] at hmap
        have hrhs : (List.range' 1 s ++ 0 ::
            List.range' (1 + s) (inst.funcs.length - s - 1)).get? s = some 0 := by
          rw [List.get?_append_right (by simp)]
          simp
        rw [hrhs] at hmap
        exact Option.some.inj hmap
      refine ⟨(t.function_index_translation.get ⟨s, hslt⟩).2, ?_, hp0⟩
      have h0s : (0 : Nat) + s = s := by omega
      have hfind' : (t.function_index_translation.find? fun p => p.1 = s) =
          t.function_index_translation.get? s := by
        have hfun : (fun p : Nat × FuncDesc => decide (p.1 = s)) =
            fun p => decide (p.1 = 0 + s) := by
          funext p
          rw [h0s]
        rw [hfun, hfind]
      rw [lookupTranslation, hfind', hp']
      rfl
  · intro hstart
    rw [hstart] at hidx
    rw [assign_top_none inst.funcs.length hN] at hidx
    refine ⟨hidx, ?_⟩
    rw [hidx, List.mem_range'_1]
    omega
  · intro k hk
    have hrun := allocRun_range k 1 (by omega)
    refine ⟨hrun, ?_⟩
    rw [hrun]
    exact (List.chain'_iff_pairwise.mpr (List.pairwise_lt_range' 1 k))

/-- Witness for C1 on the fixture module (three functions, start function at
native index 1). -/
theorem register_assigns_contiguous_indices_witness :
    instFix.funcs.length + 1 ≤ U32 ∧
    ((∀ s, modFix.startSection = some s → s < instFix.funcs.length →
      (tFix.function_index_translation.map fun p => p.2.index_within_jtable) =
        List.range' 1 s ++ 0 ::
          List.range' (1 + s) (instFix.funcs.length - s - 1) ∧
      (tFix.function_index_translation.map fun p => p.2.index_within_jtable).count 0
        = 1 ∧
      (∃ d, lookupTranslation tFix.function_index_translation s = some d ∧
        d.index_within_jtable = 0) ∧
      (tFix.function_index_translation.map fun p => p.2.index_within_jtable).Perm
        (0 :: List.range' 1 (instFix.funcs.length - 1))) ∧
    (modFix.startSection = none →
      (tFix.function_index_translation.map fun p => p.2.index_within_jtable) =
        List.range' 1 instFix.funcs.length ∧
      0 ∉ (tFix.function_index_translation.map fun p => p.2.index_within_jtable)) ∧
    (∀ k, k + 1 ≤ U32 →
      allocRun 1 k = List.range' 1 k ∧
      List.Chain' (· < ·) (allocRun 1 k))) :=
  ⟨by norm_num [instFix, U32],
    register_assigns_contiguous_indices hostFix ["get_random"] rmatchFix
      (some 10) modFix instFix tFix (by norm_num [instFix, U32]) rfl⟩

/-! ## C9: indirect-call table append semantics -/

/-- C9: `push_elem` appends exactly one `ElemEntry` carrying the given
`(table_idx, type_idx, offset, func_idx)` verbatim at the end: the length
grows by one, every earlier entry is retrievable unchanged at its original
position, the new entry sits at the old length, and the multiplicity of the
appended entry grows by one (so an identical earlier entry coexists rather
than being overwritten or deduplicated). -/
theorem push_elem_append_verbatim (t : List ElemEntry)
    (table_idx offset func_idx type_idx : Nat) :
    (push_elem t table_idx offset func_idx type_idx).length = t.length + 1 ∧
    (∀ k, k < t.length →
      (push_elem t table_idx offset func_idx type_idx).get? k = t.get? k) ∧
    (push_elem t table_idx offset func_idx type_idx).get? t.length =
      some { table_idx := table_idx, type_idx := type_idx,
             offset := offset, func_idx := func_idx } ∧
    (push_elem t table_idx offset func_idx type_idx).count
        { table_idx := table_idx, type_idx := type_idx,
          offset := offset, func_idx := func_idx } =
      t.count { table_idx := table_idx, type_idx := type_idx,
                offset := offset, func_idx := func_idx } + 1 := by
  refine ⟨by simp [push_elem], ?_, ?_, ?_⟩
  · intro k hk
    exact List.get?_append hk
  · simpa [push_elem] using List.get?_concat_length t _
  · simp [push_elem, List.count_append]

/-- Witness for C9: a table already holding the same `(table_idx, offset)`
pair keeps both entries. -/
theorem push_elem_append_verbatim_witness :
    (0 : Nat) < 1 ∧
    (push_elem [{ table_idx := 3, type_idx := 9, offset := 4, func_idx := 8 }]
        3 4 5 9).get? 0 =
      some { table_idx := 3, type_idx := 9, offset := 4, func_idx := 8 } :=
  ⟨by decide,
    (push_elem_append_verbatim
        [{ table_idx := 3, type_idx := 9, offset := 4, func_idx := 8 }]
        3 4 5 9).2.1 0 (by decide)⟩

/-! ## C5: phantom-function resolution -/

/-- C5: after registration, `is_phantom_function` holds for a handle exactly
when some configured pattern matches some export name bound to that handle
and that export is a function; non-function exports are ignored even when
their names match. -/
theorem is_phantom_function_iff (host : List (Nat × HostFunctionDesc))
    (patterns : List String) (rmatch : String → String → Bool)
    (inputRef : Option Nat) (m : WasmModule) (inst : ModuleInst) (t : Tables)
    (h : Nat)
    (hreg : register_module_instance host patterns rmatch inputRef m inst = some t) :
    is_phantom_function t h = true ↔
      ∃ pat ∈ patterns, ∃ e ∈ inst.exports,
        rmatch pat e.1 = true ∧ e.2 = ExportVal.func h := by
  obtain ⟨aF, blocks, -, hph, -, -, -⟩ :=
    register_parts host patterns rmatch inputRef m inst t hreg
  rw [is_phantom_function, hph]
  rw [List.elem_iff, resolvePhantoms, List.mem_flatMap]
  constructor
  · rintro ⟨pat, hpat, hmem⟩
    rw [List.mem_filterMap] at hmem
    obtain ⟨e, he, hfe⟩ := hmem
    refine ⟨pat, hpat, e, he, ?_⟩
    cases hv : e.2 with
    | other => rw [hv] at hfe; exact absurd hfe (by simp)
    | func r =>
      rw [hv] at hfe
      dsimp only at hfe
      by_cases hm : rmatch pat e.1 = true
      · rw [if_pos hm] at hfe
        injection hfe with hr
        exact ⟨hm, by rw [hr]⟩
      · rw [if_neg hm] at hfe
        exact absurd hfe (by simp)
  · rintro ⟨pat, hpat, e, he, hm, hv⟩
    refine ⟨pat, hpat, ?_⟩
    rw [List.mem_filterMap]
    refine ⟨e, he, ?_⟩
    rw [hv]
    dsimp only
    rw [if_pos hm]

/-- Witness for C5 on the fixture module: handle 12 is phantom via the
matching function export "get_random". -/
theorem is_phantom_function_iff_witness :
    is_phantom_function tFix 12 = true ↔
      ∃ pat ∈ ["get_random"], ∃ e ∈ instFix.exports,
        rmatchFix pat e.1 = true ∧ e.2 = ExportVal.func 12 :=
  is_phantom_function_iff hostFix ["get_random"] rmatchFix (some 10)
    modFix instFix tFix 12 rfl

/-! ## C6: phantom functions require a resolved host-input reference -/

/-- A non-phantom function's rows do not depend on the resolved host-input
index. -/
theorem rowsForFunc_input_irrelevant (tm : List (Nat × FuncDesc))
    (phantoms : List Nat) (x y : Option Nat) (i : Nat) (f : FuncInst)
    (hf : f.ref ∉ phantoms) :
    rowsForFunc tm phantoms x i f = rowsForFunc tm phantoms y i f := by
  rw [rowsForFunc, rowsForFunc]
  cases lookupTranslation tm i with
  | none => rfl
  | some fd =>
    dsimp only
    rw [if_neg hf, if_neg hf]

/-- When no function is phantom, phase 3 does not depend on the host-input
index. -/
theorem phase3_input_irrelevant (tm : List (Nat × FuncDesc))
    (phantoms : List Nat) (x y : Option Nat) :
    ∀ (fs : List FuncInst) (i : Nat), (∀ f ∈ fs, f.ref ∉ phantoms) →
      phase3 tm phantoms x fs i = phase3 tm phantoms y fs i := by
  intro fs
  induction fs with
  | nil => intro i _; rfl
  | cons f fs ih =>
    intro i h
    rw [phase3, phase3]
    rw [rowsForFunc_input_irrelevant tm phantoms x y i f
      (h f (List.mem_cons_self f fs))]
    rw [ih (i + 1) fun g hg => h g (List.mem_cons_of_mem f hg)]

/-- With an unset host-input index, phase 3 fails as soon as any function is
phantom. -/
theorem phase3_none_of_phantom (tm : List (Nat × FuncDesc))
    (phantoms : List Nat) :
    ∀ (fs : List FuncInst) (i : Nat), (∃ f ∈ fs, f.ref ∈ phantoms) →
      phase3 tm phantoms none fs i = none := by
  intro fs
  induction fs with
  | nil => intro i h; exact absurd h (by simp)
  | cons f fs ih =>
    intro i h
    rw [phase3]
    rcases h with ⟨g, hg, hgph⟩
    rcases List.mem_cons.mp hg with hgf | hgfs
    · subst hgf
      have hrows : rowsForFunc tm phantoms none i g = none := by
        rw [rowsForFunc]
        cases lookupTranslation tm i with
        | none => rfl
        | some fd =>
          dsimp only
          rw [if_pos hgph]
      rw [hrows]
    · rw [ih (i + 1) ⟨g, hgfs, hgph⟩]
      cases rowsForFunc tm phantoms none i f <;> rfl

/-- `phase1` results with the host-input component erased are independent of
the supplied host-input reference and accumulator. -/
theorem phase1_input_erase (host : List (Nat × HostFunctionDesc))
    (s : Option Nat) (r r' : Option Nat) :
    ∀ (fs : List FuncInst) (i alloc : Nat) (x y : Option Nat),
      (phase1 host s r fs i alloc x).map
          (fun q => (q.1, q.2.1, q.2.2.2)) =
        (phase1 host s r' fs i alloc y).map
          (fun q => (q.1, q.2.1, q.2.2.2)) := by
  intro fs
  induction fs with
  | nil => intro i alloc x y; rfl
  | cons f fs ih =>
    intro i alloc x y
    rw [phase1_cons, phase1_cons]
    cases classifyFunc host f.internal with
    | none => rfl
    | some ft =>
      have hrec := ih (i + 1)
        (if s = some i then alloc else (allocate_func_index alloc).2)
        (if r = some f.ref then some i else x)
        (if r' = some f.ref then some i else y)
      cases h1 : phase1 host s r fs (i + 1)
          (if s = some i then alloc else (allocate_func_index alloc).2)
          (if r = some f.ref then some i else x) with
      | none =>
        rw [h1] at hrec
        cases h2 : phase1 host s r' fs (i + 1)
            (if s = some i then alloc else (allocate_func_index alloc).2)
            (if r' = some f.ref then some i else y) with
        | none => rfl
        | some q => rw [h2] at hrec; exact absurd hrec (by simp)
      | some q =>
        rw [h1] at hrec
        cases h2 : phase1 host s r' fs (i + 1)
            (if s = some i then alloc else (allocate_func_index alloc).2)
            (if r' = some f.ref then some i else y) with
        | none => rw [h2] at hrec; exact absurd hrec (by simp)
        | some q' =>
          rw [h2] at hrec
          obtain ⟨tm, fl, inF, aF⟩ := q
          obtain ⟨tm', fl', inF', aF'⟩ := q'
          simp only [Option.map_some', Option.some.injEq, Prod.mk.injEq] at hrec
          obtain ⟨e1, e2, e3⟩ := hrec
          subst e1; subst e2; subst e3
          rfl

/-- C6: if any function of the module is in the phantom set while the
host-input index is unset after phase 1, stub synthesis fails fatally and
registration aborts; if no function is phantom, supplying no host-input
reference causes no failure (registration succeeds or fails exactly as with
any reference). -/
theorem phantom_requires_host_input :
    (∀ (host : List (Nat × HostFunctionDesc)) (patterns : List String)
        (rmatch : String → String → Bool) (inputRef : Option Nat)
        (m : WasmModule) (inst : ModuleInst)
        (tm : List (Nat × FuncDesc)) (fl : List (Nat × Nat)) (aF : Nat),
      phase1 host m.startSection inputRef inst.funcs 0 1 none =
        some (tm, fl, none, aF) →
      (∃ f ∈ inst.funcs,
        f.ref ∈ resolvePhantoms rmatch patterns inst.exports) →
      register_module_instance host patterns rmatch inputRef m inst = none) ∧
    (∀ (host : List (Nat × HostFunctionDesc)) (patterns : List String)
        (rmatch : String → String → Bool) (inputRef : Option Nat)
        (m : WasmModule) (inst : ModuleInst),
      (∀ f ∈ inst.funcs,
        f.ref ∉ resolvePhantoms rmatch patterns inst.exports) →
      (register_module_instance host patterns rmatch inputRef m inst).isSome =
        (register_module_instance host patterns rmatch none m inst).isSome) := by
  constructor
  · intro host patterns rmatch inputRef m inst tm fl aF hp hphantom
    rw [register_module_instance, hp]
    dsimp only
    rw [phase3_none_of_phantom tm
      (resolvePhantoms rmatch patterns inst.exports) inst.funcs 0 hphantom]
  · intro host patterns rmatch inputRef m inst hnoph
    rw [register_module_instance, register_module_instance]
    have herase := phase1_input_erase host m.startSection inputRef none
      inst.funcs 0 1 none none
    cases h1 : phase1 host m.startSection inputRef inst.funcs 0 1 none with
    | none =>
      rw [h1] at herase
      cases h2 : phase1 host m.startSection none inst.funcs 0 1 none with
      | none => rfl
      | some q => rw [h2] at herase; exact absurd herase (by simp)
    | some q =>
      rw [h1] at herase
      cases h2 : phase1 host m.startSection none inst.funcs 0 1 none with
      | none => rw [h2] at herase; exact absurd herase (by simp)
      | some q' =>
        rw [h2] at herase
        obtain ⟨tm, fl, inF, aF⟩ := q
        obtain ⟨tm', fl', inF', aF'⟩ := q'
        simp only [Option.map_some', Option.some.injEq, Prod.mk.injEq] at herase
        obtain ⟨e1, e2, e3⟩ := herase
        subst e1; subst e2; subst e3
        dsimp only
        rw [phase3_input_irrelevant tm
          (resolvePhantoms rmatch patterns inst.exports) inF inF'
          inst.funcs 0 hnoph]
        cases phase3 tm (resolvePhantoms rmatch patterns inst.exports)
            inF' inst.funcs 0 with
        | none => rfl
        | some blocks =>
          dsimp only
          by_cases hnd : (blocks.flatten.map fun e => (e.fid, e.iid)).Nodup
          · rw [if_pos hnd, if_pos hnd]
            rfl
          · rw [if_neg hnd, if_neg hnd]

/-! ## Helper lemmas: instruction-table block structure -/

/-- Inversion of the per-row traversal used by `rowsForFunc`: every emitted
row carries the fixed function index and the source position of its
operation, and the row count matches the source count. -/
theorem mapOption_rows_inv (tm : List (Nat × FuncDesc)) (fidx : Nat) :
    ∀ (l : List (Nat × Instr)) (rows : List IEntry),
      mapOption (buildRow tm fidx) l = some rows →
      rows.map IEntry.fid = l.map (fun _ => fidx) ∧
      rows.map IEntry.iid = l.map Prod.fst ∧
      rows.length = l.length := by
  intro l
  induction l with
  | nil =>
    intro rows h
    rw [mapOption] at h
    injection h with h
    subst h
    exact ⟨rfl, rfl, rfl⟩
  | cons p l ih =>
    intro rows h
    rw [mapOption] at h
    cases ht : translateInstr tm p.2 with
    | none =>
      rw [buildRow, ht] at h
      exact absurd h (by simp)
    | some op =>
      rw [buildRow, ht] at h
      cases hrec : mapOption (buildRow tm fidx) l with
      | none => rw [hrec] at h; exact absurd h (by simp)
      | some r =>
        rw [hrec] at h
        injection h with h
        subst h
        obtain ⟨h1, h2, h3⟩ := ih r hrec
        refine ⟨?_, ?_, ?_⟩
        · simpa using h1
        · simpa using h2
        · simpa using h3

/-- Inversion of a successful phase 3: one block per function, the `j`-th
block being the rows of the `j`-th function. -/
theorem phase3_blocks (tm : List (Nat × FuncDesc)) (ph : List Nat)
    (x : Option Nat) :
    ∀ (fs : List FuncInst) (i : Nat) (blocks : List (List IEntry)),
      phase3 tm ph x fs i = some blocks →
      blocks.length = fs.length ∧
      ∀ j f, fs.get? j = some f →
        ∃ rows, rowsForFunc tm ph x (i + j) f = some rows ∧
          blocks.get? j = some rows := by
  intro fs
  induction fs with
  | nil =>
    intro i blocks h
    rw [phase3] at h
    injection h with h
    subst h
    exact ⟨rfl, fun j f hj => absurd hj (by simp)⟩
  | cons f fs ih =>
    intro i blocks h
    rw [phase3] at h
    cases hr : rowsForFunc tm ph x i f with
    | none => rw [hr] at h; exact absurd h (by simp)
    | some rows =>
      rw [hr] at h
      cases h3 : phase3 tm ph x fs (i + 1) with
      | none => rw [h3] at h; exact absurd h (by simp)
      | some rest =>
        rw [h3] at h
        dsimp only at h
        injection h with h
        subst h
        obtain ⟨hlen, hblocks⟩ := ih (i + 1) rest h3
        refine ⟨by simpa using hlen, ?_⟩
        intro j g hj
        cases j with
        | zero =>
          rw [List.get?_cons_zero] at hj
          injection hj with hj
          subst hj
          exact ⟨rows, by simpa using hr, rfl⟩
        | succ j =>
          rw [List.get?_cons_succ] at hj
          obtain ⟨rows', hrows', hb⟩ := hblocks j g hj
          refine ⟨rows', ?_, by simpa using hb⟩
          have : i + 1 + j = i + (j + 1) := by omega
          rw [← this]
          exact hrows'

/-- `find?` returns the head of the filtered list. -/
theorem find?_eq_head?_filter {α : Type} (p : α → Bool) :
    ∀ l : List α, l.find? p = (l.filter p).head? := by
  intro l
  induction l with
  | nil => rfl
  | cons a l ih =>
    rw [List.find?_cons, List.filter_cons]
    cases h : p a with
    | true => rfl
    | false => simpa using ih

/-- Filtering a flattened block list by a tag that holds throughout exactly
one block and nowhere else returns that block. -/
theorem filter_flatten_eq_block (p : IEntry → Bool) :
    ∀ (blocks : List (List IEntry)) (j : Nat) (b : List IEntry),
      blocks.get? j = some b → (∀ e ∈ b, p e = true) →
      (∀ k b', k ≠ j → blocks.get? k = some b' → ∀ e ∈ b', p e = false) →
      blocks.flatten.filter p = b := by
  intro blocks
  induction blocks with
  | nil => intro j b hj _ _; exact absurd hj (by simp)
  | cons b0 blocks ih =>
    intro j b hj hb hother
    rw [List.flatten_cons, List.filter_append]
    cases j with
    | zero =>
      rw [List.get?_cons_zero] at hj
      injection hj with hj
      subst hj
      have h1 : b0.filter p = b0 := List.filter_eq_self.mpr hb
      have h2 : blocks.flatten.filter p = [] := by
        rw [List.filter_eq_nil]
        intro e he
        obtain ⟨l, hl, hel⟩ := List.mem_join.mp he
        obtain ⟨k, hk⟩ := List.mem_iff_get?.mp hl
        have := hother (k + 1) l (by omega) (by simpa using hk) e hel
        simp [this]
      rw [h1, h2, List.append_nil]
    | succ j =>
      rw [List.get?_cons_succ] at hj
      have h0 : b0.filter p = [] := by
        rw [List.filter_eq_nil]
        intro e he
        have := hother 0 b0 (by omega) (by simp) e he
        simp [this]
      rw [h0, List.nil_append]
      exact ih j b hj hb fun k b' hk hb' =>
        hother (k + 1) b' (by omega) (by simpa using hb')

/-- A pair of a zip is a pair of components at a common index. -/
theorem mem_zip_idx {α β : Type} :
    ∀ (l1 : List α) (l2 : List β) (q : α × β), q ∈ l1.zip l2 →
      ∃ j, l1.get? j = some q.1 ∧ l2.get? j = some q.2 := by
  intro l1
  induction l1 with
  | nil => intro l2 q hq; simp at hq
  | cons a l1 ih =>
    intro l2 q hq
    cases l2 with
    | nil => simp at hq
    | cons b l2 =>
      rw [List.zip_cons_cons] at hq
      rcases List.mem_cons.mp hq with h | h
      · subst h
        exact ⟨0, rfl, rfl⟩
      · obtain ⟨j, h1, h2⟩ := ih l2 q h
        exact ⟨j + 1, by simpa using h1, by simpa using h2⟩

/-- In a duplicate-free list, a value determines its index. -/
theorem nodup_get?_inj {α : Type} :
    ∀ (l : List α), l.Nodup → ∀ (j k : Nat) (a : α),
      l.get? j = some a → l.get? k = some a → j = k := by
  intro l
  induction l with
  | nil => intro _ j k a hj _; simp at hj
  | cons x l ih =>
    intro hnd j k a hj hk
    obtain ⟨hx, hl⟩ := List.nodup_cons.mp hnd
    cases j with
    | zero =>
      rw [List.get?_cons_zero] at hj
      injection hj with hj
      subst hj
      cases k with
      | zero => rfl
      | succ k =>
        rw [List.get?_cons_succ] at hk
        exact absurd (List.get?_mem hk) hx
    | succ j =>
      rw [List.get?_cons_succ] at hj
      cases k with
      | zero =>
        rw [List.get?_cons_zero] at hk
        injection hk with hk
        subst hk
        exact absurd (List.get?_mem hj) hx
      | succ k =>
        rw [List.get?_cons_succ] at hk
        exact congrArg Nat.succ (ih hl j k a hj hk)

/-- The top-level stable-index sequence never repeats an index. -/
theorem assign_top_nodup (s : Option Nat) (N : Nat) (hN : N + 1 ≤ U32) :
    (assignIndices s 0 1 N).Nodup := by
  rw [assignIndices_eq_pure s N 0 1 (by omega)]
  cases s with
  | none =>
    rw [assignPure_no_start none N 0 1 fun k _ => by simp]
    exact List.nodup_range' 1 N
  | some v =>
    by_cases hv : v < N
    · have h0 : (some v : Option Nat) = some (0 + v) := by simp
      rw [h0, assignPure_start N 0 1 v hv]
      have hrhs : (0 :: List.range' 1 (N - 1)).Nodup := by
        refine List.Nodup.cons ?_ (List.nodup_range' 1 (N - 1))
        rw [List.mem_range'_1]
        omega
      have hperm := assign_start_perm N v hv
      exact hperm.nodup_iff.mpr hrhs
    · rw [assignPure_no_start (some v) N 0 1 fun k hk => by
        intro hc
        injection hc with hc
        omega]
      exact List.nodup_range' 1 N

/-- A list of rows whose fid projection is constant is fid-constant
pointwise. -/
theorem fid_const_of_map {rows : List IEntry} {l : List (Nat × Instr)}
    {fidx : Nat} (h : rows.map IEntry.fid = l.map fun _ => fidx) :
    ∀ e ∈ rows, e.fid = fidx := by
  intro e he
  have hmem : e.fid ∈ rows.map IEntry.fid := List.mem_map_of_mem _ he
  rw [h] at hmem
  obtain ⟨a, -, ha⟩ := List.mem_map.mp hmem
  exact ha.symm

/-- Every row a function contributes carries that function's stable index. -/
theorem rowsForFunc_fid (tm : List (Nat × FuncDesc)) (ph : List Nat)
    (x : Option Nat) (j : Nat) (f : FuncInst) (fd : FuncDesc)
    (rows : List IEntry)
    (hfd : lookupTranslation tm j = some fd)
    (hrows : rowsForFunc tm ph x j f = some rows) :
    ∀ e ∈ rows, e.fid = fd.index_within_jtable := by
  rw [rowsForFunc, hfd] at hrows
  dsimp only at hrows
  by_cases hph : f.ref ∈ ph
  · rw [if_pos hph] at hrows
    cases hx : x with
    | none => rw [hx] at hrows; exact absurd hrows (by simp)
    | some widx =>
      rw [hx] at hrows
      exact fid_const_of_map (mapOption_rows_inv tm _ _ rows hrows).1
  · rw [if_neg hph] at hrows
    cases hb : f.body with
    | none =>
      rw [hb] at hrows
      injection hrows with hrows
      subst hrows
      intro e he
      simp at he
    | some body =>
      rw [hb] at hrows
      exact fid_const_of_map (mapOption_rows_inv tm _ _ rows hrows).1

/-- Within one function's rows the positions are strictly increasing (stub
positions are `0,1,2,…`; real bodies are decoded at strictly increasing
program counters). -/
theorem rowsForFunc_iid_pairwise (tm : List (Nat × FuncDesc)) (ph : List Nat)
    (x : Option Nat) (j : Nat) (f : FuncInst) (rows : List IEntry)
    (hrows : rowsForFunc tm ph x j f = some rows)
    (hbody : ∀ b, f.body = some b → List.Pairwise (· < ·) (b.map Prod.fst)) :
    List.Pairwise (fun a b : IEntry => a.iid < b.iid) rows := by
  rw [rowsForFunc] at hrows
  cases hfd : lookupTranslation tm j with
  | none => rw [hfd] at hrows; exact absurd hrows (by simp)
  | some fd =>
    rw [hfd] at hrows
    dsimp only at hrows
    by_cases hph : f.ref ∈ ph
    · rw [if_pos hph] at hrows
      cases hx : x with
      | none => rw [hx] at hrows; exact absurd hrows (by simp)
      | some widx =>
        rw [hx] at hrows
        have h2 := (mapOption_rows_inv tm _ _ rows hrows).2.1
        have hpw : (rows.map IEntry.iid).Pairwise (· < ·) := by
          rw [h2, List.enum_map_fst]
          exact List.pairwise_lt_range _
        exact List.pairwise_map.mp hpw
    · rw [if_neg hph] at hrows
      cases hb : f.body with
      | none =>
        rw [hb] at hrows
        injection hrows with hrows
        subst hrows
        exact List.Pairwise.nil
      | some body =>
        rw [hb] at hrows
        have h2 := (mapOption_rows_inv tm _ _ rows hrows).2.1
        have hpw : (rows.map IEntry.iid).Pairwise (· < ·) := by
          rw [h2]
          exact hbody body hb
        exact List.pairwise_map.mp hpw

/-- With translation keys `0,…,N-1` in order, `lookupTranslation` is a plain
positional lookup. -/
theorem lookupTranslation_eq_get? (tm : List (Nat × FuncDesc)) (N j : Nat)
    (hkeys : tm.map Prod.fst = List.range' 0 N) (hj : j < N) :
    lookupTranslation tm j = (tm.get? j).map Prod.snd := by
  have hfind := find?_keys_range' tm 0 N j hkeys hj
  rw [lookupTranslation]
  have hfun : (fun p : Nat × FuncDesc => decide (p.1 = j)) =
      fun p => decide (p.1 = 0 + j) := by
    funext p
    rw [Nat.zero_add]
  rw [hfun, hfind]

/-- The stable index of the `j`-th function is the `j`-th assigned index. -/
theorem fit_idx_eq_assign (tm : List (Nat × FuncDesc)) (s : Option Nat)
    (N j : Nat) (fd : FuncDesc)
    (hidx : (tm.map fun p => p.2.index_within_jtable) = assignIndices s 0 1 N)
    (hget : (tm.get? j).map Prod.snd = some fd) :
    (assignIndices s 0 1 N).get? j = some fd.index_within_jtable := by
  have hmap := congrArg (fun l => l.get? j) hidx
  simp only [List.get?_map] at hmap
  cases hg : tm.get? j with
  | none => rw [hg] at hget; exact absurd hget (by simp)
  | some p =>
    rw [hg] at hget hmap
    injection hget with hget
    rw [← hmap]
    simp [hget]

/-- In a successful registration, the rows of the instruction table carrying
the `j`-th function's stable index are exactly the rows emitted for the
`j`-th function. -/
theorem register_block_structure (host : List (Nat × HostFunctionDesc))
    (patterns : List String) (rmatch : String → String → Bool)
    (inputRef : Option Nat) (m : WasmModule) (inst : ModuleInst) (t : Tables)
    (hN : inst.funcs.length + 1 ≤ U32)
    (hreg : register_module_instance host patterns rmatch inputRef m inst = some t) :
    ∀ j f, inst.funcs.get? j = some f →
      ∃ fd rows,
        lookupTranslation t.function_index_translation j = some fd ∧
        rowsForFunc t.function_index_translation t.phantom_functions_ref
          t.wasm_input_func_idx j f = some rows ∧
        (t.itable.filter fun e => e.fid = fd.index_within_jtable) = rows := by
  obtain ⟨aF, blocks, hp, hph, h3, hit, -⟩ :=
    register_parts host patterns rmatch inputRef m inst t hreg
  obtain ⟨hkeys, hidx, -, -⟩ := phase1_shape host m.startSection inputRef
    inst.funcs 0 1 none t.function_index_translation t.function_lookup
    t.wasm_input_func_idx aF hp
  have hnodup := assign_top_nodup m.startSection inst.funcs.length hN
  obtain ⟨hblen, hblocks⟩ := phase3_blocks t.function_index_translation
    t.phantom_functions_ref t.wasm_input_func_idx inst.funcs 0 blocks h3
  have hlen : t.function_index_translation.length = inst.funcs.length := by
    have := congrArg List.length hkeys
    simpa using this
  -- positional description of every block's fids
  have hblockfid : ∀ k b, blocks.get? k = some b →
      ∃ fdk, (assignIndices m.startSection 0 1 inst.funcs.length).get? k =
          some fdk.index_within_jtable ∧
        lookupTranslation t.function_index_translation k = some fdk ∧
        ∀ e ∈ b, e.fid = fdk.index_within_jtable := by
    intro k b hb
    have hklt : k < blocks.length := by
      rcases List.get?_eq_some.mp hb with ⟨hk, -⟩
      exact hk
    have hkN : k < inst.funcs.length := by omega
    obtain ⟨fk, hfk⟩ : ∃ fk, inst.funcs.get? k = some fk := by
      rcases List.get?_eq_some.mpr ?_ with h
      · exact ⟨_, List.get?_eq_get (by omega)⟩
    obtain ⟨rowsk, hrowsk, hbk⟩ := hblocks k fk hfk
    rw [hb] at hbk
    injection hbk with hbk
    subst hbk
    have hlook := lookupTranslation_eq_get? t.function_index_translation
      inst.funcs.length k hkeys hkN
    cases hg : t.function_index_translation.get? k with
    | none =>
      rcases List.get?_eq_some.mp (List.get?_eq_get
        (show k < t.function_index_translation.length by omega)) with ⟨-, -⟩
      rw [hg] at hlook
      exact absurd (List.get?_eq_get
        (show k < t.function_index_translation.length by omega))
        (by rw [hg]; simp)
    | some pk =>
      rw [hg] at hlook
      refine ⟨pk.2, ?_, by simpa using hlook, ?_⟩
      · exact fit_idx_eq_assign t.function_index_translation m.startSection
          inst.funcs.length k pk.2 hidx (by rw [hg]; rfl)
      · have h0k : (0 : Nat) + k = k := Nat.zero_add k
        rw [h0k] at hrowsk
        exact rowsForFunc_fid t.function_index_translation
          t.phantom_functions_ref t.wasm_input_func_idx k fk pk.2 b
          (by simpa using hlook) hrowsk
  intro j f hj
  have hjN : j < inst.funcs.length := by
    rcases List.get?_eq_some.mp hj with ⟨hk, -⟩
    simpa using hk
  obtain ⟨rows, hrows, hbj⟩ := hblocks j f hj
  obtain ⟨fd, hassignj, hlookj, hfidj⟩ := hblockfid j rows hbj
  have h0j : (0 : Nat) + j = j := Nat.zero_add j
  rw [h0j] at hrows
  refine ⟨fd, rows, hlookj, hrows, ?_⟩
  rw [hit]
  apply filter_flatten_eq_block _ blocks j rows hbj
  · intro e he
    simp [hfidj e he]
  · intro k b' hk hb' e he
    obtain ⟨fdk, hassignk, -, hfidk⟩ := hblockfid k b' hb'
    have hne : fdk.index_within_jtable ≠ fd.index_within_jtable := by
      intro hcontra
      apply hk
      exact nodup_get?_inj _ hnodup k j fd.index_within_jtable
        (by rw [← hcontra]; exact hassignk) hassignj
    simp [hfidk e he, hne]

/-! ## C4: phantom functions contribute only stub rows -/

/-- C4: in a successful registration, the instruction-table rows carrying a
phantom function's stable index are exactly the translated synthesized stub
sequence at positions `0,1,2,…` (their count equalling the stub length), and
are unchanged under any replacement of the function's real body; a
non-phantom function's rows are exactly its translated real body in source
order (and empty when it has no body). -/
theorem phantom_rows_from_stub_only (host : List (Nat × HostFunctionDesc))
    (patterns : List String) (rmatch : String → String → Bool)
    (inputRef : Option Nat) (m : WasmModule) (inst : ModuleInst) (t : Tables)
    (j : Nat) (f : FuncInst)
    (hN : inst.funcs.length + 1 ≤ U32)
    (hreg : register_module_instance host patterns rmatch inputRef m inst = some t)
    (hj : inst.funcs.get? j = some f) :
    ∃ fd rows,
      lookupTranslation t.function_index_translation j = some fd ∧
      (t.itable.filter fun e => e.fid = fd.index_within_jtable) = rows ∧
      (f.ref ∈ t.phantom_functions_ref →
        ∃ widx, t.wasm_input_func_idx = some widx ∧
          mapOption (buildRow t.function_index_translation fd.index_within_jtable)
            (build_phantom_function_instructions f.signature widx).enum
            = some rows ∧
          rows.length =
            (build_phantom_function_instructions f.signature widx).length ∧
          rows.map IEntry.iid =
            List.range
              (build_phantom_function_instructions f.signature widx).length ∧
          (∀ b', rowsForFunc t.function_index_translation
              t.phantom_functions_ref t.wasm_input_func_idx j
              { f with body := b' } = some rows)) ∧
      (f.ref ∉ t.phantom_functions_ref →
        (∀ b, f.body = some b →
          mapOption (buildRow t.function_index_translation fd.index_within_jtable)
            b = some rows ∧
          rows.map IEntry.iid = b.map Prod.fst) ∧
        (f.body = none → rows = [])) := by
  obtain ⟨fd, rows, hlook, hrows, hfilter⟩ :=
    register_block_structure host patterns rmatch inputRef m inst t hN hreg j f hj
  refine ⟨fd, rows, hlook, hfilter, ?_, ?_⟩
  · intro hph
    rw [rowsForFunc, hlook] at hrows
    dsimp only at hrows
    rw [if_pos hph] at hrows
    cases hx : t.wasm_input_func_idx with
    | none => rw [hx] at hrows; exact absurd hrows (by simp)
    | some widx =>
      rw [hx] at hrows
      have hinv := mapOption_rows_inv t.function_index_translation
        fd.index_within_jtable _ rows hrows
      refine ⟨widx, rfl, hrows, ?_, ?_, ?_⟩
      · rw [hinv.2.2]
        simp
      · rw [hinv.2.1, List.enum_map_fst]
      · intro b'
        rw [rowsForFunc, hlook]
        dsimp only
        rw [if_pos hph]
        exact hrows
  · intro hph
    rw [rowsForFunc, hlook] at hrows
    dsimp only at hrows
    rw [if_neg hph] at hrows
    constructor
    · intro b hb
      rw [hb] at hrows
      have hinv := mapOption_rows_inv t.function_index_translation
        fd.index_within_jtable _ rows hrows
      exact ⟨hrows, hinv.2.1⟩
    · intro hb
      rw [hb] at hrows
      injection hrows with hrows
      exact hrows.symm

/-- Witness for C4 on the fixture module: function 2 is phantom. -/
theorem phantom_rows_from_stub_only_witness :
    instFix.funcs.get? 2 =
      some { ref := 12, internal := .internal,
             signature := { params := 0, results := 1 },
             body := some [(0, .other 5), (1, .ret)] } ∧
    ∃ fd rows,
      lookupTranslation tFix.function_index_translation 2 = some fd ∧
      (tFix.itable.filter fun e => e.fid = fd.index_within_jtable) = rows ∧
      (({ ref := 12, internal := .internal,
          signature := { params := 0, results := 1 },
          body := some [(0, .other 5), (1, .ret)] } : FuncInst).ref ∈
          tFix.phantom_functions_ref →
        ∃ widx, tFix.wasm_input_func_idx = some widx ∧
          mapOption (buildRow tFix.function_index_translation
              fd.index_within_jtable)
            (build_phantom_function_instructions
              { params := 0, results := 1 } widx).enum = some rows ∧
          rows.length = (build_phantom_function_instructions
            { params := 0, results := 1 } widx).length ∧
          rows.map IEntry.iid = List.range
            (build_phantom_function_instructions
              { params := 0, results := 1 } widx).length ∧
          (∀ b', rowsForFunc tFix.function_index_translation
              tFix.phantom_functions_ref tFix.wasm_input_func_idx 2
              { ref := 12, internal := .internal,
                signature := { params := 0, results := 1 },
                body := b' } = some rows)) ∧
      (({ ref := 12, internal := .internal,
          signature := { params := 0, results := 1 },
          body := some [(0, .other 5), (1, .ret)] } : FuncInst).ref ∉
          tFix.phantom_functions_ref →
        (∀ b, (some [((0 : Nat), Instr.other 5), (1, .ret)] :
            Option (List (Nat × Instr))) = some b →
          mapOption (buildRow tFix.function_index_translation
            fd.index_within_jtable) b = some rows ∧
          rows.map IEntry.iid = b.map Prod.fst) ∧
        ((some [((0 : Nat), Instr.other 5), (1, .ret)] :
            Option (List (Nat × Instr))) = none → rows = [])) :=
  ⟨rfl, phantom_rows_from_stub_only hostFix ["get_random"] rmatchFix (some 10)
    modFix instFix tFix 2
    { ref := 12, internal := .internal,
      signature := { params := 0, results := 1 },
      body := some [(0, .other 5), (1, .ret)] }
    (by norm_num [instFix, U32]) rfl rfl⟩

/-! ## C8: first-instruction lookup returns the earliest position -/

/-- C8: for a registered handle, `lookup_first_inst` returns the row with
the minimal position among the handle's rows in the instruction table (real
bodies are decoded at strictly increasing program counters, which the
`hbodies` hypothesis records); when the handle has no rows the lookup is
fatal. -/
theorem lookup_first_inst_earliest (host : List (Nat × HostFunctionDesc))
    (patterns : List String) (rmatch : String → String → Bool)
    (inputRef : Option Nat) (m : WasmModule) (inst : ModuleInst) (t : Tables)
    (r d : Nat)
    (hN : inst.funcs.length + 1 ≤ U32)
    (hreg : register_module_instance host patterns rmatch inputRef m inst = some t)
    (hbodies : ∀ f ∈ inst.funcs,
      List.Pairwise (· < ·) ((f.body.getD []).map Prod.fst))
    (hlf : lookup_function t r = some d) :
    ((t.itable.filter fun e => e.fid = d) = [] →
      lookup_first_inst t r = none) ∧
    (∀ e0 rest, (t.itable.filter fun e => e.fid = d) = e0 :: rest →
      lookup_first_inst t r = some e0 ∧ e0 ∈ t.itable ∧ e0.fid = d ∧
      ∀ e' ∈ t.itable, e'.fid = d → e0.iid ≤ e'.iid) := by
  have hfirst : lookup_first_inst t r =
      (t.itable.filter fun e => e.fid = d).head? := by
    rw [lookup_first_inst, hlf]
    dsimp only
    rw [find?_eq_head?_filter]
  constructor
  · intro hempty
    rw [hfirst, hempty]
    rfl
  · intro e0 rest hfilter
    -- recover the function index behind the stable index d
    obtain ⟨aF, blocks, hp, -, -, -, -⟩ :=
      register_parts host patterns rmatch inputRef m inst t hreg
    obtain ⟨hkeys, hidx, -, hfl⟩ := phase1_shape host m.startSection inputRef
      inst.funcs 0 1 none t.function_index_translation t.function_lookup
      t.wasm_input_func_idx aF hp
    rw [lookup_function] at hlf
    cases hfind : t.function_lookup.find? fun p => p.1 = r with
    | none => rw [hfind] at hlf; exact absurd hlf (by simp)
    | some pr =>
      rw [hfind] at hlf
      injection hlf with hd
      have hmem := List.mem_of_find?_eq_some hfind
      rw [hfl] at hmem
      obtain ⟨j, hj1, hj2⟩ := mem_zip_idx _ _ pr hmem
      have hjN : j < inst.funcs.length := by
        rcases List.get?_eq_some.mp hj1 with ⟨hlt, -⟩
        simpa using hlt
      have hfj : ∃ fj, inst.funcs.get? j = some fj := by
        rw [List.get?_map] at hj1
        cases hg : inst.funcs.get? j with
        | none => rw [hg] at hj1; exact absurd hj1 (by simp)
        | some fj => exact ⟨fj, rfl⟩
      obtain ⟨fj, hfjeq⟩ := hfj
      obtain ⟨fd, rows, hlook, hrows, hfilterj⟩ :=
        register_block_structure host patterns rmatch inputRef m inst t hN
          hreg j fj hfjeq
      -- the block's stable index is d
      have hfd_d : fd.index_within_jtable = d := by
        have hlook' := lookupTranslation_eq_get? t.function_index_translation
          inst.funcs.length j hkeys hjN
        rw [hlook] at hlook'
        have hassign := fit_idx_eq_assign t.function_index_translation
          m.startSection inst.funcs.length j fd hidx hlook'.symm
        rw [hassign] at hj2
        injection hj2 with h2
        exact h2.trans hd
      rw [hfd_d] at hfilterj
      rw [hfilterj] at hfilter
      subst hfilter
      have hpw : List.Pairwise (fun a b : IEntry => a.iid < b.iid)
          (e0 :: rest) := by
        exact rowsForFunc_iid_pairwise t.function_index_translation
          t.phantom_functions_ref t.wasm_input_func_idx j fj (e0 :: rest)
          hrows fun b hb => by
            have := hbodies fj (List.get?_mem hfjeq)
            rw [hb] at this
            simpa using this
      have he0mem : e0 ∈ t.itable := by
        have : e0 ∈ t.itable.filter fun e => e.fid = d := by
          rw [hfilterj]
          exact List.mem_cons_self e0 rest
        exact List.mem_of_mem_filter this
      have he0fid : e0.fid = d := by
        have : e0 ∈ t.itable.filter fun e => e.fid = d := by
          rw [hfilterj]
          exact List.mem_cons_self e0 rest
        have := List.of_mem_filter this
        simpa using this
      refine ⟨by rw [hfirst, hfilterj]; rfl, he0mem, he0fid, ?_⟩
      intro e' he' hfid'
      have he'filter : e' ∈ t.itable.filter fun e => e.fid = d :=
        List.mem_filter.mpr ⟨he', by simp [hfid']⟩
      rw [hfilterj] at he'filter
      rcases List.mem_cons.mp he'filter with h | h
      · rw [h]
      · exact Nat.le_of_lt ((List.pairwise_cons.mp hpw).1 e' h)

/-- Witness for C8 on the fixture module: handle 11 (the start function,
stable index 0) has two rows at positions 0 and 2; the lookup returns the
row at position 0. -/
theorem lookup_first_inst_earliest_witness :
    lookup_function tFix 11 = some 0 ∧
    (((tFix.itable.filter fun e => e.fid = 0) = [] →
      lookup_first_inst tFix 11 = none) ∧
    (∀ e0 rest, (tFix.itable.filter fun e => e.fid = 0) = e0 :: rest →
      lookup_first_inst tFix 11 = some e0 ∧ e0 ∈ tFix.itable ∧ e0.fid = 0 ∧
      ∀ e' ∈ tFix.itable, e'.fid = 0 → e0.iid ≤ e'.iid)) :=
  ⟨rfl, lookup_first_inst_earliest hostFix ["get_random"] rmatchFix (some 10)
    modFix instFix tFix 11 0 (by norm_num [instFix, U32]) rfl
    (by decide) rfl⟩

/-- Witness for C6: on the fixture module with no host-input reference,
registration fails because "get_random" is phantom (part 1); with no
patterns configured, registering with and without a host-input reference
succeeds alike (part 2). -/
theorem phantom_requires_host_input_witness :
    register_module_instance hostFix ["get_random"] rmatchFix none
      modFix instFix = none ∧
    (register_module_instance hostFix [] rmatchFix (some 10)
        modFix instFix).isSome =
      (register_module_instance hostFix [] rmatchFix none
        modFix instFix).isSome :=
  ⟨phantom_requires_host_input.1 hostFix ["get_random"] rmatchFix none
      modFix instFix p1FixNoInput.1 p1FixNoInput.2.1 p1FixNoInput.2.2.2
      rfl (by decide),
    phantom_requires_host_input.2 hostFix [] rmatchFix (some 10)
      modFix instFix (by decide)⟩

end Wasmi
